import Mathlib

/-!
A shallow embedding in Lean 4 of the core pipeline of the
`market-inefficiencies-pipeline` repository, together with proofs of the
specification's claims about it.

Python floats are modelled as rationals (`ℚ`); the numeric values in every
claim are exactly representable, and none of the claims concerns rounding.
Python `dict`s (insertion ordered, unique keys) are modelled as association
lists in insertion order.  A Python expression that can raise is modelled
with `Except`/`Option`.

Embedded code:
* `scripts/detect_events.py` — the as-of merger and spread-metric loop
  (lines 52–64) and the event-extraction state machine (lines 76–128);
* `scripts/backtest.py` — `total_cost_bps_from_cfg` (lines 39–46),
  `nearest_mid` (lines 49–64) and the per-event trade loop of `main`
  (lines 136–198).
-/

/-- A row of the `ticks` table: `(ts_ms, venue, mid)` as read by both
`detect_events.py` and `backtest.py`. -/
structure Tick where
  ts_ms : Int
  venue : String
  mid : ℚ
deriving DecidableEq, Repr

/-- A row of the metric stream built in `detect_events.py` (line 64):
`(ts_ms, min_venue, max_venue, min_mid, max_mid, spread_bps)`. -/
structure MetricRow where
  ts_ms : Int
  min_venue : String
  max_venue : String
  min_mid : ℚ
  max_mid : ℚ
  spread_bps : ℚ
deriving DecidableEq, Repr

/-- A detected dislocation event as appended in `detect_events.py`
(lines 100–110 and 118–128); the `n_points=None` column is omitted as it is
constant. -/
structure Event where
  start_ms : Int
  end_ms : Int
  duration_ms : Int
  peak_bps : ℚ
  min_venue : String
  max_venue : String
deriving DecidableEq, Repr

/-! ### As-of merger and spread-metric engine (`detect_events.py` lines 52–64) -/

/-- The `last_mid` Python dict as an association list in insertion order:
`last_mid[venue] = mid` updates the existing entry in place, or appends a new
one. -/
def updateLast (lm : List (String × ℚ)) (venue : String) (mid : ℚ) :
    List (String × ℚ) :=
  if lm.any (fun p => p.1 = venue) then
    lm.map (fun p => if p.1 = venue then (venue, mid) else p)
  else
    lm ++ [(venue, mid)]

/-- Dictionary lookup `last_mid[venue]`: the entry for the key, if any
(keys are unique in a Python dict, so the first match is the entry). -/
def lookupVenue : List (String × ℚ) → String → Option ℚ
  | [], _ => none
  | p :: ps, venue => if p.1 = venue then some p.2 else lookupVenue ps venue

/-- Python `min(items, key=lambda x: x[1])`: the first item with minimal
second component (replacement only on strict decrease). -/
def minByMid : List (String × ℚ) → Option (String × ℚ)
  | [] => none
  | p :: ps => some (ps.foldl (fun acc q => if q.2 < acc.2 then q else acc) p)

/-- Python `max(items, key=lambda x: x[1])`: the first item with maximal
second component (replacement only on strict increase). -/
def maxByMid : List (String × ℚ) → Option (String × ℚ)
  | [] => none
  | p :: ps => some (ps.foldl (fun acc q => if acc.2 < q.2 then q else acc) p)

/-- Outcome of the metric computation for one tick: fewer than two venues
(no row), a computed row, or a Python `ZeroDivisionError` when
`avg_mid = 0` (the source has no guard on `avg_mid`). -/
inductive MetricResult where
  | noSample
  | sample (r : MetricRow)
  | divError
deriving DecidableEq, Repr

/-- Body of the metric loop of `detect_events.py` lines 58–64 for one tick,
after `last_mid` has been updated. -/
def metricOfState (ts : Int) (lm : List (String × ℚ)) : MetricResult :=
  if 2 ≤ lm.length then
    match minByMid lm, maxByMid lm with
    | some mn, some mx =>
        let avg_mid := (mn.2 + mx.2) / 2
        if avg_mid = 0 then MetricResult.divError
        else MetricResult.sample
          ⟨ts, mn.1, mx.1, mn.2, mx.2, (mx.2 - mn.2) / avg_mid * 10000⟩
    | _, _ => MetricResult.noSample
  else MetricResult.noSample

/-- The `for ts, venue, mid in ticks` loop of `detect_events.py` lines 56–64:
threads `last_mid` through the ticks and collects the metric rows;
`Except.error ()` models an uncaught `ZeroDivisionError`. -/
def metricsLoop (lm : List (String × ℚ)) :
    List Tick → Except Unit (List MetricRow)
  | [] => Except.ok []
  | t :: ts =>
    let lm2 := updateLast lm t.venue t.mid
    match metricOfState t.ts_ms lm2 with
    | MetricResult.divError => Except.error ()
    | MetricResult.noSample => metricsLoop lm2 ts
    | MetricResult.sample r =>
        match metricsLoop lm2 ts with
        | Except.error e => Except.error e
        | Except.ok rs => Except.ok (r :: rs)

/-- The `last_mid` dict after consuming a list of ticks from the empty
initial state. -/
def venueStateAfter (ticks : List Tick) : List (String × ℚ) :=
  ticks.foldl (fun lm t => updateLast lm t.venue t.mid) []

/-- The mid of the latest tick for `venue` in a tick list, if any. -/
def lastMidOf (venue : String) (ticks : List Tick) : Option ℚ :=
  match (ticks.filter (fun t => t.venue = venue)).getLast? with
  | some t => some t.mid
  | none => none

/-! ### Event extractor (`detect_events.py` lines 76–128) -/

/-- The side variables live while `in_event` is `True`: `start`, `peak`,
`peak_v`.  The extractor state is `Option InsideSt` — `none` is
`in_event = False` (the variables are unread then), `some` is
`in_event = True`. -/
structure InsideSt where
  start : Int
  peak : ℚ
  peak_v : String × String
deriving DecidableEq, Repr

/-- One iteration of the detection loop (`detect_events.py` lines 81–111):
next state plus the event emitted on this sample, if any. -/
def detectStep (threshold_bps : ℚ) (persistence_ms : Int)
    (st : Option InsideSt) (row : MetricRow) :
    Option InsideSt × Option Event :=
  if threshold_bps ≤ row.spread_bps then
    match st with
    | none =>
        (some ⟨row.ts_ms, row.spread_bps, (row.min_venue, row.max_venue)⟩, none)
    | some s =>
        if s.peak < row.spread_bps then
          (some ⟨s.start, row.spread_bps, (row.min_venue, row.max_venue)⟩, none)
        else (some s, none)
  else
    match st with
    | none => (none, none)
    | some s =>
        let dur := row.ts_ms - s.start
        if persistence_ms ≤ dur then
          (none, some ⟨s.start, row.ts_ms, dur, s.peak, s.peak_v.1, s.peak_v.2⟩)
        else (none, none)

/-- The whole `for row in metrics` loop: final state and emitted events in
order. -/
def detectLoop (threshold_bps : ℚ) (persistence_ms : Int) :
    Option InsideSt → List MetricRow → Option InsideSt × List Event
  | st, [] => (st, [])
  | st, r :: rs =>
    let p := detectStep threshold_bps persistence_ms st r
    let q := detectLoop threshold_bps persistence_ms p.1 rs
    (q.1, p.2.toList ++ q.2)

/-- The `# close trailing event` block of `detect_events.py` lines 113–128:
when the loop ends with `in_event` still `True`, close the interval at the
last metric row's timestamp (`metrics["ts_ms"].iloc[-1]`) and apply the same
persistence filter.  (When the loop is `INSIDE` the metric frame is
nonempty, so the `none` last-row case is unreachable there.) -/
def flushTrailing (persistence_ms : Int) (st : Option InsideSt)
    (lastRow? : Option MetricRow) : List Event :=
  match st, lastRow? with
  | some s, some lastRow =>
      let dur := lastRow.ts_ms - s.start
      if persistence_ms ≤ dur then
        [⟨s.start, lastRow.ts_ms, dur, s.peak, s.peak_v.1, s.peak_v.2⟩]
      else []
  | _, _ => []

/-- The full extraction of `detect_events.py` lines 76–128: the loop followed
by the trailing-event flush. -/
def detectEvents (threshold_bps : ℚ) (persistence_ms : Int)
    (rows : List MetricRow) : List Event :=
  let p := detectLoop threshold_bps persistence_ms none rows
  p.2 ++ flushTrailing persistence_ms p.1 rows.getLast?

/-! ### Cost model (`backtest.py` lines 39–46) -/

/-- A value in the `costs_bps` mapping: either one that Python's `float()`
converts (numbers, numeric strings, booleans), carried as its numeric value,
or one on which `float()` raises (`None`, non-numeric strings, lists, …). -/
inductive CfgVal where
  | num (q : ℚ)
  | malformed
deriving DecidableEq, Repr

/-- The `costs_bps` entry of the configuration: absent (or falsy, which
`or {}` turns into the empty dict), present but not a dict, or a dict. -/
inductive CostsField where
  | absent
  | notDict
  | dict (entries : List (String × CfgVal))
deriving DecidableEq, Repr

/-- Python `sum(float(v) for v in costs.values())`: raises at the first
value `float()` cannot convert. -/
def sumVals : List (String × CfgVal) → Except Unit ℚ
  | [] => Except.ok 0
  | (_, CfgVal.num q) :: rest =>
      match sumVals rest with
      | Except.error e => Except.error e
      | Except.ok s => Except.ok (q + s)
  | (_, CfgVal.malformed) :: _ => Except.error ()

/-- `total_cost_bps_from_cfg` of `backtest.py` lines 39–46: `0.0` when
`costs_bps` is absent/falsy or not a dict, otherwise `4 × Σ float(v)`;
`Except.error ()` models the uncaught exception from `float()` on a
malformed value. -/
def total_cost_bps_from_cfg : CostsField → Except Unit ℚ
  | CostsField.absent => Except.ok 0
  | CostsField.notDict => Except.ok 0
  | CostsField.dict entries =>
      match sumVals entries with
      | Except.error e => Except.error e
      | Except.ok s => Except.ok (4 * s)

/-! ### Backtest engine (`backtest.py` lines 49–64 and 136–198) -/

/-- `nearest_mid(ticks, ts_ms, venue)`: restrict to the venue's ticks, then
take the row minimising `|ts_ms − target|`; `idxmin` returns the first
minimiser.  (The cleaned tick frame has numeric mids, so the `float(val)`
of the source cannot raise here.) -/
def nearest_mid (ticks : List Tick) (ts_ms : Int) (venue : String) :
    Option ℚ :=
  match ticks.filter (fun t => t.venue = venue) with
  | [] => none
  | t :: rest =>
      some ((rest.foldl
        (fun acc u =>
          if |u.ts_ms - ts_ms| < |acc.ts_ms - ts_ms| then u else acc) t).mid)

/-- A row of the events CSV as consumed by `backtest.py`: the four required
columns plus the optional `spread_bps`.  `spread_field = some q` means the
column is present and `float()` converts the row's value to `q`;
`spread_field = none` means the column is absent or the conversion raised
(both leave the local `spread_bps = None`). -/
structure EventRow where
  start_ms : Int
  end_ms : Int
  min_venue : String
  max_venue : String
  spread_field : Option ℚ
deriving DecidableEq, Repr

/-- A row of the trades output (`backtest.py` lines 180–198). -/
structure Trade where
  start_ms : Int
  end_ms : Int
  duration_ms : Int
  entry_ts : Int
  exit_ts : Int
  long_venue : String
  short_venue : String
  long_entry_mid : Option ℚ
  short_entry_mid : Option ℚ
  long_exit_mid : Option ℚ
  short_exit_mid : Option ℚ
  spread_bps : ℚ
  pnl_bps : ℚ
  total_cost_bps : ℚ
  pnl_net_bps : ℚ
deriving DecidableEq, Repr

/-- The body of the `for r in events` loop (`backtest.py` lines 137–198):
`none` when the event is skipped by `continue` (no resolvable spread),
`some` the appended trade otherwise. -/
def processEvent (ticks : List Tick) (latency_ms : Int) (total_cost_bps : ℚ)
    (r : EventRow) : Option Trade :=
  let entry_ts := r.start_ms + latency_ms
  let exit_ts := r.end_ms + latency_ms
  let long_entry := nearest_mid ticks entry_ts r.min_venue
  let short_entry := nearest_mid ticks entry_ts r.max_venue
  let long_exit := nearest_mid ticks exit_ts r.min_venue
  let short_exit := nearest_mid ticks exit_ts r.max_venue
  let spread_bps :=
    match r.spread_field with
    | some q => some q
    | none =>
        match long_entry, short_entry with
        | some le, some se =>
            let mid_avg := (le + se) / 2
            if 0 < mid_avg then some ((se - le) / mid_avg * 10000) else none
        | _, _ => none
  match spread_bps with
  | none => none
  | some s =>
      some
        { start_ms := r.start_ms
          end_ms := r.end_ms
          duration_ms := r.end_ms - r.start_ms
          entry_ts := entry_ts
          exit_ts := exit_ts
          long_venue := r.min_venue
          short_venue := r.max_venue
          long_entry_mid := long_entry
          short_entry_mid := short_entry
          long_exit_mid := long_exit
          short_exit_mid := short_exit
          spread_bps := s
          pnl_bps := s
          total_cost_bps := total_cost_bps
          pnl_net_bps := s - total_cost_bps }

/-- The trades list produced by the event loop: one row per surviving event,
in input order; dropped events leave no placeholder. -/
def runBacktest (ticks : List Tick) (latency_ms : Int) (total_cost_bps : ℚ)
    (events : List EventRow) : List Trade :=
  events.filterMap (processEvent ticks latency_ms total_cost_bps)

/-! ### Helper lemmas for the cost model -/

theorem sumVals_map_num (entries : List (String × ℚ)) :
    sumVals (entries.map fun p => (p.1, CfgVal.num p.2))
      = Except.ok (entries.map Prod.snd).sum := by
  induction entries with
  | nil => rfl
  | cons p ps ih => simp [sumVals, ih]

theorem sumVals_ok_of_wellformed (entries : List (String × CfgVal))
    (h : ∀ p ∈ entries, p.2 ≠ CfgVal.malformed) :
    ∃ s, sumVals entries = Except.ok s := by
  induction entries with
  | nil => exact ⟨0, rfl⟩
  | cons p ps ih =>
    obtain ⟨s, hs⟩ := ih (fun q hq => h q (List.mem_cons_of_mem _ hq))
    rcases p with ⟨nm, val⟩
    cases val with
    | num q => exact ⟨q + s, by simp [sumVals, hs]⟩
    | malformed =>
        exact absurd rfl (h (nm, CfgVal.malformed) (List.mem_cons_self _ _))

/-- C8: for a `costs_bps` dict whose values are all numeric, the total
round-trip cost is `4 ×` the sum of the configured component values; in
particular `{fee: 2, half_spread: 1, slippage: 3}` yields exactly `24`. -/
theorem cost_model_is_four_times_sum (entries : List (String × ℚ)) :
    total_cost_bps_from_cfg
        (CostsField.dict (entries.map fun p => (p.1, CfgVal.num p.2)))
      = Except.ok (4 * (entries.map Prod.snd).sum)
    ∧ total_cost_bps_from_cfg
        (CostsField.dict
          [("fee", CfgVal.num 2), ("half_spread", CfgVal.num 1),
           ("slippage", CfgVal.num 3)])
      = Except.ok 24 := by
  constructor
  · simp [total_cost_bps_from_cfg, sumVals_map_num]
  · norm_num [total_cost_bps_from_cfg, sumVals]

/-- C5 counterexample: a `costs_bps` dict containing a value that `float()`
cannot convert (e.g. `{fee: null}`) makes `total_cost_bps_from_cfg` raise;
the malformed component is not treated as zero. -/
theorem cost_cfg_malformed_raises :
    total_cost_bps_from_cfg (CostsField.dict [("fee", CfgVal.malformed)])
      = Except.error () := rfl

/-- C5 (amended): `total_cost_bps_from_cfg` degrades to `0.0` when
`costs_bps` is absent/falsy or not a dict, and returns a value whenever
every component value is convertible; but a non-convertible component value
inside the dict raises rather than contributing zero. -/
theorem cost_cfg_graceful_only_for_shape (entries : List (String × CfgVal))
    (h : ∀ p ∈ entries, p.2 ≠ CfgVal.malformed) :
    (∃ q, total_cost_bps_from_cfg (CostsField.dict entries) = Except.ok q)
    ∧ total_cost_bps_from_cfg CostsField.absent = Except.ok 0
    ∧ total_cost_bps_from_cfg CostsField.notDict = Except.ok 0 := by
  obtain ⟨s, hs⟩ := sumVals_ok_of_wellformed entries h
  exact ⟨⟨4 * s, by simp [total_cost_bps_from_cfg, hs]⟩, rfl, rfl⟩

/-- Witness for `cost_cfg_graceful_only_for_shape` at a one-entry numeric
dict. -/
theorem cost_cfg_graceful_only_for_shape_witness :
    (∃ q, total_cost_bps_from_cfg (CostsField.dict [("fee", CfgVal.num 2)])
        = Except.ok q)
    ∧ total_cost_bps_from_cfg CostsField.absent = Except.ok 0
    ∧ total_cost_bps_from_cfg CostsField.notDict = Except.ok 0 :=
  cost_cfg_graceful_only_for_shape [("fee", CfgVal.num 2)] (by decide)

/-! ### Backtest claims -/

/-- C9: every trade produced by the event loop has `pnl_bps` equal to its
`spread_bps` (entry/exit mids are diagnostic only) and
`pnl_net_bps = pnl_bps − total_cost_bps`; in particular an event with
`spread_bps = 24` and `total_cost_bps = 24` nets exactly `0`. -/
theorem backtest_full_capture (ticks : List Tick) (latency_ms : Int)
    (cost : ℚ) (r : EventRow) (t : Trade)
    (h : processEvent ticks latency_ms cost r = some t) :
    (t.pnl_bps = t.spread_bps
      ∧ t.pnl_net_bps = t.pnl_bps - t.total_cost_bps
      ∧ t.total_cost_bps = cost)
    ∧ (processEvent [] 0 24 ⟨0, 100, "A", "B", some 24⟩).map Trade.pnl_net_bps
        = some 0 := by
  refine ⟨?_, by norm_num [processEvent, nearest_mid]⟩
  simp only [processEvent] at h
  split at h
  · exact Option.noConfusion h
  · injection h with h2
    subst h2
    exact ⟨rfl, rfl, rfl⟩

/-- Witness for `backtest_full_capture` at the `spread = cost = 24` event. -/
theorem backtest_full_capture_witness :
    ((⟨0, 100, 100, 0, 100, "A", "B", none, none, none, none,
        24, 24, 24, 0⟩ : Trade).pnl_bps
        = (⟨0, 100, 100, 0, 100, "A", "B", none, none, none, none,
            24, 24, 24, 0⟩ : Trade).spread_bps
      ∧ (⟨0, 100, 100, 0, 100, "A", "B", none, none, none, none,
          24, 24, 24, 0⟩ : Trade).pnl_net_bps
        = (⟨0, 100, 100, 0, 100, "A", "B", none, none, none, none,
            24, 24, 24, 0⟩ : Trade).pnl_bps
          - (⟨0, 100, 100, 0, 100, "A", "B", none, none, none, none,
              24, 24, 24, 0⟩ : Trade).total_cost_bps
      ∧ (⟨0, 100, 100, 0, 100, "A", "B", none, none, none, none,
          24, 24, 24, 0⟩ : Trade).total_cost_bps = 24)
    ∧ (processEvent [] 0 24 ⟨0, 100, "A", "B", some 24⟩).map Trade.pnl_net_bps
        = some 0 :=
  backtest_full_capture [] 0 24 ⟨0, 100, "A", "B", some 24⟩ _
    (by norm_num [processEvent, nearest_mid])

/-- A tick list covering only venue `"C"`. -/
def ticksOnlyC : List Tick := [⟨0, "C", 1⟩]

/-- An events row for venues `"A"`/`"B"` carrying a parsable `spread_bps`. -/
def evCarried : EventRow := ⟨0, 100, "A", "B", some 10⟩

/-- C6 counterexample: an event whose two venues both have zero tick
coverage still yields a Trade row when the events file carries a parsable
`spread_bps` column — the trade count equals the event count. -/
theorem carried_spread_keeps_uncovered_event :
    ticksOnlyC.filter (fun t => t.venue = evCarried.min_venue) = []
    ∧ ticksOnlyC.filter (fun t => t.venue = evCarried.max_venue) = []
    ∧ (runBacktest ticksOnlyC 0 0 [evCarried]).length = [evCarried].length :=
  ⟨rfl, rfl, rfl⟩

theorem length_filterMap_lt_of_none {α β : Type} (f : α → Option β)
    (l : List α) (a : α) (ha : a ∈ l) (hf : f a = none) :
    (l.filterMap f).length < l.length := by
  induction l with
  | nil => cases ha
  | cons b bs ih =>
    rcases List.mem_cons.mp ha with rfl | hmem
    · rw [List.filterMap_cons, hf]
      exact Nat.lt_succ_of_le (List.length_filterMap_le f bs)
    · rw [List.filterMap_cons]
      cases hfb : f b with
      | none => exact Nat.lt_succ_of_lt (ih hmem)
      | some c => simpa using Nat.succ_lt_succ (ih hmem)

/-- C6 (amended): an event whose two venues both have zero tick coverage
and whose `spread_bps` field is absent/unparsable is dropped — it produces
no Trade row, and the trade count is then strictly below the event count. -/
theorem uncovered_event_dropped (ticks : List Tick) (latency_ms : Int)
    (cost : ℚ) (events : List EventRow) (r : EventRow)
    (hmem : r ∈ events)
    (hlong : ticks.filter (fun t => t.venue = r.min_venue) = [])
    (hshort : ticks.filter (fun t => t.venue = r.max_venue) = [])
    (hsp : r.spread_field = none) :
    processEvent ticks latency_ms cost r = none
    ∧ (runBacktest ticks latency_ms cost events).length < events.length := by
  have hnone : processEvent ticks latency_ms cost r = none := by
    simp [processEvent, nearest_mid, hlong, hshort, hsp]
  refine ⟨hnone, ?_⟩
  unfold runBacktest
  exact length_filterMap_lt_of_none _ events r hmem hnone

/-- Witness for `uncovered_event_dropped` at a concrete one-event input. -/
theorem uncovered_event_dropped_witness :
    processEvent ticksOnlyC 0 0 ⟨0, 100, "A", "B", none⟩ = none
    ∧ (runBacktest ticksOnlyC 0 0 [⟨0, 100, "A", "B", none⟩]).length
        < [(⟨0, 100, "A", "B", none⟩ : EventRow)].length :=
  uncovered_event_dropped ticksOnlyC 0 0 [⟨0, 100, "A", "B", none⟩] _
    (List.mem_singleton.mpr rfl) rfl rfl rfl

/-! ### Spread-metric claims -/

/-- C7 counterexample: the metric loop has no `avg_mid > 0` guard — a tick
pair with mids `1` and `−1` gives `avg_mid = 0` and the run raises a
division error instead of skipping the sample. -/
theorem metric_divides_without_guard :
    metricsLoop [] [⟨0, "A", 1⟩, ⟨1, "B", -1⟩] = Except.error () := by
  have hAB : ("A" : String) ≠ "B" := by decide
  norm_num [metricsLoop, updateLast, metricOfState, minByMid, maxByMid, hAB]

theorem foldl_step_mem {α : Type} (step : α → α → α)
    (hstep : ∀ a b, step a b = a ∨ step a b = b) :
    ∀ (ps : List α) (p : α), ps.foldl step p ∈ p :: ps := by
  intro ps
  induction ps with
  | nil => intro p; exact List.mem_singleton.mpr rfl
  | cons q qs ih =>
    intro p
    simp only [List.foldl_cons]
    rcases List.mem_cons.mp (ih (step p q)) with h | h
    · rw [h]
      rcases hstep p q with h2 | h2
      · rw [h2]; exact List.mem_cons_self _ _
      · rw [h2]; exact List.mem_cons_of_mem _ (List.mem_cons_self _ _)
    · exact List.mem_cons_of_mem _ (List.mem_cons_of_mem _ h)

theorem minByMid_mem {lm : List (String × ℚ)} {p : String × ℚ}
    (h : minByMid lm = some p) : p ∈ lm := by
  cases lm with
  | nil => exact Option.noConfusion h
  | cons q qs =>
    have hmem := foldl_step_mem (fun acc r => if r.2 < acc.2 then r else acc)
      (fun a b => by by_cases hab : b.2 < a.2 <;> simp [hab]) qs q
    simp only [minByMid, Option.some.injEq] at h
    exact h ▸ hmem

theorem maxByMid_mem {lm : List (String × ℚ)} {p : String × ℚ}
    (h : maxByMid lm = some p) : p ∈ lm := by
  cases lm with
  | nil => exact Option.noConfusion h
  | cons q qs =>
    have hmem := foldl_step_mem (fun acc r => if acc.2 < r.2 then r else acc)
      (fun a b => by by_cases hab : a.2 < b.2 <;> simp [hab]) qs q
    simp only [maxByMid, Option.some.injEq] at h
    exact h ▸ hmem

theorem minByMid_eq_none {lm : List (String × ℚ)}
    (h : minByMid lm = none) : lm = [] := by
  cases lm with
  | nil => rfl
  | cons q qs => exact Option.noConfusion h

theorem maxByMid_eq_none {lm : List (String × ℚ)}
    (h : maxByMid lm = none) : lm = [] := by
  cases lm with
  | nil => rfl
  | cons q qs => exact Option.noConfusion h

theorem updateLast_pos {lm : List (String × ℚ)} {mid : ℚ} (venue : String)
    (hlm : ∀ p ∈ lm, 0 < p.2) (hmid : 0 < mid) :
    ∀ p ∈ updateLast lm venue mid, 0 < p.2 := by
  intro p hp
  unfold updateLast at hp
  split at hp
  · rcases List.mem_map.mp hp with ⟨q, hq, hfq⟩
    by_cases hqv : q.1 = venue
    · rw [if_pos hqv] at hfq
      exact hfq ▸ hmid
    · rw [if_neg hqv] at hfq
      exact hfq ▸ hlm q hq
  · rcases List.mem_append.mp hp with h | h
    · exact hlm p h
    · rw [List.mem_singleton.mp h]
      exact hmid

theorem metricOfState_characterize (ts : Int) (lm : List (String × ℚ))
    (hpos : ∀ p ∈ lm, 0 < p.2) :
    metricOfState ts lm = MetricResult.noSample
    ∨ ∃ r, metricOfState ts lm = MetricResult.sample r
        ∧ 0 < (r.min_mid + r.max_mid) / 2 := by
  unfold metricOfState
  by_cases h2 : 2 ≤ lm.length
  · rw [if_pos h2]
    cases hmin : minByMid lm with
    | none =>
        rw [minByMid_eq_none hmin] at h2
        simp at h2
    | some mn =>
      cases hmax : maxByMid lm with
      | none =>
          rw [maxByMid_eq_none hmax] at h2
          simp at h2
      | some mx =>
        have hmn : 0 < mn.2 := hpos mn (minByMid_mem hmin)
        have hmx : 0 < mx.2 := hpos mx (maxByMid_mem hmax)
        have havg : (0:ℚ) < (mn.2 + mx.2) / 2 := by positivity
        refine Or.inr ⟨⟨ts, mn.1, mx.1, mn.2, mx.2,
          (mx.2 - mn.2) / ((mn.2 + mx.2) / 2) * 10000⟩, ?_, havg⟩
        show (if (mn.2 + mx.2) / 2 = 0 then MetricResult.divError
          else MetricResult.sample ⟨ts, mn.1, mx.1, mn.2, mx.2,
            (mx.2 - mn.2) / ((mn.2 + mx.2) / 2) * 10000⟩) = _
        rw [if_neg (by positivity : ¬((mn.2 + mx.2) / 2 = 0))]
  · rw [if_neg h2]
    exact Or.inl rfl

theorem metricsLoop_pos :
    ∀ (ticks : List Tick) (lm : List (String × ℚ)),
      (∀ p ∈ lm, 0 < p.2) → (∀ t ∈ ticks, 0 < t.mid) →
      ∃ rs, metricsLoop lm ticks = Except.ok rs
        ∧ ∀ r ∈ rs, 0 < (r.min_mid + r.max_mid) / 2 := by
  intro ticks
  induction ticks with
  | nil => exact fun lm _ _ => ⟨[], rfl, by simp⟩
  | cons t ts ih =>
    intro lm hlm hticks
    have hmid : 0 < t.mid := hticks t (List.mem_cons_self _ _)
    have hlm2 : ∀ p ∈ updateLast lm t.venue t.mid, 0 < p.2 :=
      updateLast_pos t.venue hlm hmid
    obtain ⟨rs, hrs, hpos⟩ :=
      ih (updateLast lm t.venue t.mid) hlm2
        (fun u hu => hticks u (List.mem_cons_of_mem _ hu))
    rcases metricOfState_characterize t.ts_ms (updateLast lm t.venue t.mid)
        hlm2 with hms | ⟨r, hms, havg⟩
    · exact ⟨rs, by simp only [metricsLoop, hms, hrs], hpos⟩
    · refine ⟨r :: rs, by simp only [metricsLoop, hms, hrs], ?_⟩
      intro r2 hr2
      rcases List.mem_cons.mp hr2 with rfl | hr2
      · exact havg
      · exact hpos r2 hr2

/-- C7 (amended): the metric stage has no `avg_mid` guard (a zero average
mid raises a division error, see `metric_divides_without_guard`); however
when every tick mid is positive — the data-model invariant — every snapshot
average is positive, no division error can occur, and every emitted sample
has `(min_mid + max_mid) / 2 > 0`. -/
theorem metric_safe_on_positive_mids (ticks : List Tick)
    (h : ∀ t ∈ ticks, 0 < t.mid) :
    ∃ rs, metricsLoop [] ticks = Except.ok rs
      ∧ ∀ r ∈ rs, 0 < (r.min_mid + r.max_mid) / 2 :=
  metricsLoop_pos ticks [] (by simp) h

/-- Witness for `metric_safe_on_positive_mids` at a two-venue tick list. -/
theorem metric_safe_on_positive_mids_witness :
    ∃ rs, metricsLoop [] [⟨0, "A", 1⟩, ⟨1, "B", 2⟩] = Except.ok rs
      ∧ ∀ r ∈ rs, 0 < (r.min_mid + r.max_mid) / 2 :=
  metric_safe_on_positive_mids [⟨0, "A", 1⟩, ⟨1, "B", 2⟩] (by norm_num)

/-! ### Event-extractor claims -/

/-- The spec's flush example: spread `[10, 10, 10]` at `ts = [0, 100, 200]`. -/
def rowsFlushEx : List MetricRow :=
  [⟨0, "a", "b", 1, 1001/1000, 10⟩, ⟨100, "a", "b", 1, 1001/1000, 10⟩,
   ⟨200, "a", "b", 1, 1001/1000, 10⟩]

/-- The spec's threshold-boundary example: spread `[4.9, 5, 5.1, 4.9]` at
`ts = [0, 10, 20, 30]`. -/
def rowsBoundaryEx : List MetricRow :=
  [⟨0, "a", "b", 1, 1, 49/10⟩, ⟨10, "a", "b", 1, 1, 5⟩,
   ⟨20, "a", "b", 1, 1, 51/10⟩, ⟨30, "a", "b", 1, 1, 49/10⟩]

theorem detectLoop_cons (th : ℚ) (pers : Int) (st : Option InsideSt)
    (r : MetricRow) (rs : List MetricRow) :
    detectLoop th pers st (r :: rs)
      = ((detectLoop th pers (detectStep th pers st r).1 rs).1,
         (detectStep th pers st r).2.toList
           ++ (detectLoop th pers (detectStep th pers st r).1 rs).2) := rfl

theorem detectStep_enter (th : ℚ) (pers : Int) (row : MetricRow)
    (h : th ≤ row.spread_bps) :
    detectStep th pers none row
      = (some ⟨row.ts_ms, row.spread_bps, (row.min_venue, row.max_venue)⟩,
         none) := by
  simp [detectStep, h]

theorem detectStep_stay (th : ℚ) (pers : Int) (s : InsideSt) (row : MetricRow)
    (h : th ≤ row.spread_bps) :
    ∃ s2, detectStep th pers (some s) row = (some s2, none)
      ∧ s2.start = s.start := by
  by_cases hp : s.peak < row.spread_bps
  · exact ⟨⟨s.start, row.spread_bps, (row.min_venue, row.max_venue)⟩,
      by simp [detectStep, h, hp], rfl⟩
  · exact ⟨s, by simp [detectStep, h, hp], rfl⟩

theorem detectStep_skip (th : ℚ) (pers : Int) (row : MetricRow)
    (h : ¬ th ≤ row.spread_bps) :
    detectStep th pers none row = (none, none) := by
  simp [detectStep, h]

theorem detectStep_exit (th : ℚ) (pers : Int) (s : InsideSt) (row : MetricRow)
    (h : ¬ th ≤ row.spread_bps) :
    detectStep th pers (some s) row
      = (none,
         if pers ≤ row.ts_ms - s.start then
           some ⟨s.start, row.ts_ms, row.ts_ms - s.start, s.peak,
                 s.peak_v.1, s.peak_v.2⟩
         else none) := by
  by_cases hd : pers ≤ row.ts_ms - s.start <;> simp [detectStep, h, hd]

/-- C1: if the extractor is still `INSIDE` when the stream ends, the open
interval is closed at the last sample's timestamp and emitted exactly when
its duration passes the persistence filter; the spread sequence
`[10, 10, 10]` at `ts = [0, 100, 200]` with threshold `5` and persistence
`0` emits exactly one event with `start_ms = 0`, `end_ms = 200`. -/
theorem extractor_flushes_trailing_event (th : ℚ) (pers : Int)
    (rows : List MetricRow) (s : InsideSt) (lastRow : MetricRow)
    (hst : (detectLoop th pers none rows).1 = some s)
    (hlast : rows.getLast? = some lastRow) :
    detectEvents th pers rows
      = (detectLoop th pers none rows).2
        ++ (if pers ≤ lastRow.ts_ms - s.start then
              [⟨s.start, lastRow.ts_ms, lastRow.ts_ms - s.start, s.peak,
                s.peak_v.1, s.peak_v.2⟩]
            else [])
    ∧ detectEvents 5 0 rowsFlushEx = [⟨0, 200, 200, 10, "a", "b"⟩] := by
  constructor
  · show (detectLoop th pers none rows).2
        ++ flushTrailing pers (detectLoop th pers none rows).1 rows.getLast?
      = _
    rw [hst, hlast]
    rfl
  · norm_num [detectEvents, detectLoop, detectStep, flushTrailing, rowsFlushEx]

/-- Witness for `extractor_flushes_trailing_event` on the flush example. -/
theorem extractor_flushes_trailing_event_witness :
    ((detectLoop 5 0 none rowsFlushEx).1 = some ⟨0, 10, ("a", "b")⟩
      ∧ rowsFlushEx.getLast? = some ⟨200, "a", "b", 1, 1001/1000, 10⟩)
    ∧ detectEvents 5 0 rowsFlushEx
        = (detectLoop 5 0 none rowsFlushEx).2 ++ [⟨0, 200, 200, 10, "a", "b"⟩]
    ∧ detectEvents 5 0 rowsFlushEx = [⟨0, 200, 200, 10, "a", "b"⟩] :=
  ⟨⟨by norm_num [detectLoop, detectStep, rowsFlushEx], rfl⟩,
   extractor_flushes_trailing_event 5 0 rowsFlushEx ⟨0, 10, ("a", "b")⟩
     ⟨200, "a", "b", 1, 1001/1000, 10⟩
     (by norm_num [detectLoop, detectStep, rowsFlushEx]) rfl⟩

/-- C2: from `OUTSIDE` the extractor enters exactly on samples with
`spread_bps ≥ threshold_bps`; while `INSIDE` it leaves exactly on samples
with `spread_bps < threshold_bps`, and an exit records `end_ms` as that
first below-threshold sample's timestamp; the boundary sequence
`[4.9, 5, 5.1, 4.9]` at `ts = [0, 10, 20, 30]` with threshold `5` enters at
`ts = 10` and exits at `ts = 30` with duration `20`. -/
theorem extractor_threshold_semantics (th : ℚ) (pers : Int)
    (row : MetricRow) (s : InsideSt) :
    ((detectStep th pers none row).1.isSome ↔ th ≤ row.spread_bps)
    ∧ ((detectStep th pers (some s) row).1 = none ↔ row.spread_bps < th)
    ∧ ((detectStep th pers (some s) row).2
        = if row.spread_bps < th then
            (if pers ≤ row.ts_ms - s.start then
              some ⟨s.start, row.ts_ms, row.ts_ms - s.start, s.peak,
                    s.peak_v.1, s.peak_v.2⟩
             else none)
          else none)
    ∧ detectEvents 5 0 rowsBoundaryEx = [⟨10, 30, 20, 51/10, "a", "b"⟩] := by
  refine ⟨?_, ?_, ?_, ?_⟩
  · by_cases h : th ≤ row.spread_bps <;> simp [detectStep, h]
  · by_cases h : th ≤ row.spread_bps
    · rw [detectStep_stay th pers s row h |>.choose_spec.1]
      simp [not_lt.mpr h]
    · rw [detectStep_exit th pers s row h]
      simp [not_le.mp h]
  · by_cases h : th ≤ row.spread_bps
    · rw [detectStep_stay th pers s row h |>.choose_spec.1,
          if_neg (not_lt.mpr h)]
    · rw [detectStep_exit th pers s row h, if_pos (not_le.mp h)]
  · norm_num [detectEvents, detectLoop, detectStep, flushTrailing,
      rowsBoundaryEx]

theorem detectStep_event_duration (th : ℚ) (pers : Int) (st : Option InsideSt)
    (row : MetricRow) (e : Event)
    (h : (detectStep th pers st row).2 = some e) : pers ≤ e.duration_ms := by
  by_cases hth : th ≤ row.spread_bps
  · cases st with
    | none => rw [detectStep_enter th pers row hth] at h; exact Option.noConfusion h
    | some s =>
      obtain ⟨s2, hs2, -⟩ := detectStep_stay th pers s row hth
      rw [hs2] at h
      exact Option.noConfusion h
  · cases st with
    | none => rw [detectStep_skip th pers row hth] at h; exact Option.noConfusion h
    | some s =>
      rw [detectStep_exit th pers s row hth] at h
      by_cases hd : pers ≤ row.ts_ms - s.start
      · rw [if_pos hd] at h
        rw [← Option.some.inj h]
        exact hd
      · rw [if_neg hd] at h
        exact Option.noConfusion h

theorem detectLoop_event_duration (th : ℚ) (pers : Int) :
    ∀ (rows : List MetricRow) (st : Option InsideSt) (e : Event),
      e ∈ (detectLoop th pers st rows).2 → pers ≤ e.duration_ms := by
  intro rows
  induction rows with
  | nil => intro st e he; simp [detectLoop] at he
  | cons r rs ih =>
    intro st e he
    rw [detectLoop_cons] at he
    rcases List.mem_append.mp he with h1 | h2
    · cases hstep : (detectStep th pers st r).2 with
      | none => rw [hstep] at h1; simp at h1
      | some ev =>
        rw [hstep] at h1
        simp only [Option.toList_some, List.mem_singleton] at h1
        exact h1 ▸ detectStep_event_duration th pers st r ev hstep
    · exact ih _ e h2

/-- C3: every event emitted by the extractor — closed mid-stream or flushed
at end of stream — satisfies `duration_ms ≥ persistence_ms`; shorter
intervals leave no record at all. -/
theorem emitted_events_pass_persistence (th : ℚ) (pers : Int)
    (rows : List MetricRow) (e : Event)
    (he : e ∈ detectEvents th pers rows) : pers ≤ e.duration_ms := by
  have he2 : e ∈ (detectLoop th pers none rows).2
      ++ flushTrailing pers (detectLoop th pers none rows).1 rows.getLast? :=
    he
  rcases List.mem_append.mp he2 with h1 | h2
  · exact detectLoop_event_duration th pers rows none e h1
  · rcases hst : (detectLoop th pers none rows).1 with - | s <;> rw [hst] at h2
    · simp [flushTrailing] at h2
    · rcases hlast : rows.getLast? with - | lr <;> rw [hlast] at h2
      · simp [flushTrailing] at h2
      · by_cases hd : pers ≤ lr.ts_ms - s.start
        · have hflush : flushTrailing pers (some s) (some lr)
              = [⟨s.start, lr.ts_ms, lr.ts_ms - s.start, s.peak,
                  s.peak_v.1, s.peak_v.2⟩] := by
            simp [flushTrailing, hd]
          rw [hflush] at h2
          rw [List.mem_singleton.mp h2]
          exact hd
        · simp [flushTrailing, hd] at h2

/-- Witness part for `emitted_events_pass_persistence` on the flush
example. -/
theorem emitted_events_pass_persistence_witness :
    (⟨0, 200, 200, 10, "a", "b"⟩ : Event) ∈ detectEvents 5 0 rowsFlushEx
    ∧ (0 : Int) ≤ (⟨0, 200, 200, 10, "a", "b"⟩ : Event).duration_ms :=
  ⟨by norm_num [detectEvents, detectLoop, detectStep, flushTrailing,
      rowsFlushEx],
   emitted_events_pass_persistence 5 0 rowsFlushEx ⟨0, 200, 200, 10, "a", "b"⟩
     (by norm_num [detectEvents, detectLoop, detectStep, flushTrailing,
        rowsFlushEx])⟩

/-! ### Ordering of extracted events -/

theorem memGetLast? {α : Type} {l : List α} {a : α}
    (h : l.getLast? = some a) : a ∈ l := by
  induction l with
  | nil => cases h
  | cons b bs ih =>
    cases bs with
    | nil =>
      simp only [List.getLast?_singleton, Option.some.injEq] at h
      simp [h]
    | cons c cs =>
      rw [List.getLast?_cons_cons] at h
      exact List.mem_cons_of_mem _ (ih h)

theorem ts_le_getLast {rows : List MetricRow} {r lastRow : MetricRow}
    (hs : List.Pairwise (fun a b => a.ts_ms ≤ b.ts_ms) rows)
    (hr : r ∈ rows) (hl : rows.getLast? = some lastRow) :
    r.ts_ms ≤ lastRow.ts_ms := by
  induction rows with
  | nil => cases hr
  | cons a l ih =>
    obtain ⟨ha, htail⟩ := List.pairwise_cons.mp hs
    cases l with
    | nil =>
      simp only [List.getLast?_singleton, Option.some.injEq] at hl
      rw [List.mem_singleton.mp hr, hl]
    | cons b m =>
      rw [List.getLast?_cons_cons] at hl
      rcases List.mem_cons.mp hr with rfl | hr2
      · exact ha lastRow (memGetLast? hl)
      · exact ih htail hr2 hl

theorem detectLoop_cons_enter (th : ℚ) (pers : Int) (r : MetricRow)
    (rs : List MetricRow) (h : th ≤ r.spread_bps) :
    detectLoop th pers none (r :: rs)
      = detectLoop th pers
          (some ⟨r.ts_ms, r.spread_bps, (r.min_venue, r.max_venue)⟩) rs := by
  rw [detectLoop_cons, detectStep_enter th pers r h]
  rfl

theorem detectLoop_cons_stay (th : ℚ) (pers : Int) (s : InsideSt)
    (r : MetricRow) (rs : List MetricRow) (h : th ≤ r.spread_bps) :
    ∃ s2, s2.start = s.start
      ∧ detectLoop th pers (some s) (r :: rs)
        = detectLoop th pers (some s2) rs := by
  obtain ⟨s2, hs2, hstart⟩ := detectStep_stay th pers s r h
  exact ⟨s2, hstart, by rw [detectLoop_cons, hs2]; rfl⟩

theorem detectLoop_cons_skip (th : ℚ) (pers : Int) (r : MetricRow)
    (rs : List MetricRow) (h : ¬ th ≤ r.spread_bps) :
    detectLoop th pers none (r :: rs) = detectLoop th pers none rs := by
  rw [detectLoop_cons, detectStep_skip th pers r h]
  rfl

theorem detectLoop_cons_exit_emit (th : ℚ) (pers : Int) (s : InsideSt)
    (r : MetricRow) (rs : List MetricRow) (h : ¬ th ≤ r.spread_bps)
    (hd : pers ≤ r.ts_ms - s.start) :
    detectLoop th pers (some s) (r :: rs)
      = ((detectLoop th pers none rs).1,
         ⟨s.start, r.ts_ms, r.ts_ms - s.start, s.peak, s.peak_v.1, s.peak_v.2⟩
           :: (detectLoop th pers none rs).2) := by
  rw [detectLoop_cons, detectStep_exit th pers s r h, if_pos hd]
  rfl

theorem detectLoop_cons_exit_drop (th : ℚ) (pers : Int) (s : InsideSt)
    (r : MetricRow) (rs : List MetricRow) (h : ¬ th ≤ r.spread_bps)
    (hd : ¬ pers ≤ r.ts_ms - s.start) :
    detectLoop th pers (some s) (r :: rs) = detectLoop th pers none rs := by
  rw [detectLoop_cons, detectStep_exit th pers s r h, if_neg hd]
  rfl

theorem detectLoop_event_start_origin (th : ℚ) (pers : Int) :
    ∀ (rows : List MetricRow) (st : Option InsideSt) (e : Event),
      e ∈ (detectLoop th pers st rows).2 →
      (∃ s, st = some s ∧ e.start_ms = s.start)
      ∨ ∃ r ∈ rows, e.start_ms = r.ts_ms := by
  intro rows
  induction rows with
  | nil => intro st e he; simp [detectLoop] at he
  | cons r rs ih =>
    intro st e he
    by_cases hth : th ≤ r.spread_bps
    · cases st with
      | none =>
        rw [detectLoop_cons_enter th pers r rs hth] at he
        rcases ih _ e he with ⟨s2, hs2, hstart⟩ | ⟨u, hu, hstart⟩
        · refine Or.inr ⟨r, List.mem_cons_self _ _, ?_⟩
          rw [hstart, ← Option.some.inj hs2]
        · exact Or.inr ⟨u, List.mem_cons_of_mem _ hu, hstart⟩
      | some s =>
        obtain ⟨s2, hs2start, heq⟩ := detectLoop_cons_stay th pers s r rs hth
        rw [heq] at he
        rcases ih _ e he with ⟨s3, hs3, hstart⟩ | ⟨u, hu, hstart⟩
        · exact Or.inl ⟨s, rfl, by rw [hstart, ← Option.some.inj hs3, hs2start]⟩
        · exact Or.inr ⟨u, List.mem_cons_of_mem _ hu, hstart⟩
    · cases st with
      | none =>
        rw [detectLoop_cons_skip th pers r rs hth] at he
        rcases ih _ e he with ⟨s2, hs2, -⟩ | ⟨u, hu, hstart⟩
        · exact Option.noConfusion hs2
        · exact Or.inr ⟨u, List.mem_cons_of_mem _ hu, hstart⟩
      | some s =>
        by_cases hd : pers ≤ r.ts_ms - s.start
        · rw [detectLoop_cons_exit_emit th pers s r rs hth hd] at he
          rcases List.mem_cons.mp he with rfl | he2
          · exact Or.inl ⟨s, rfl, rfl⟩
          · rcases ih _ e he2 with ⟨s2, hs2, -⟩ | ⟨u, hu, hstart⟩
            · exact Option.noConfusion hs2
            · exact Or.inr ⟨u, List.mem_cons_of_mem _ hu, hstart⟩
        · rw [detectLoop_cons_exit_drop th pers s r rs hth hd] at he
          rcases ih _ e he with ⟨s2, hs2, -⟩ | ⟨u, hu, hstart⟩
          · exact Option.noConfusion hs2
          · exact Or.inr ⟨u, List.mem_cons_of_mem _ hu, hstart⟩

theorem detectLoop_state_start_origin (th : ℚ) (pers : Int) :
    ∀ (rows : List MetricRow) (st : Option InsideSt) (sF : InsideSt),
      (detectLoop th pers st rows).1 = some sF →
      (∃ s, st = some s ∧ sF.start = s.start)
      ∨ ∃ r ∈ rows, sF.start = r.ts_ms := by
  intro rows
  induction rows with
  | nil => intro st sF h; exact Or.inl ⟨sF, h, rfl⟩
  | cons r rs ih =>
    intro st sF h
    by_cases hth : th ≤ r.spread_bps
    · cases st with
      | none =>
        rw [detectLoop_cons_enter th pers r rs hth] at h
        rcases ih _ sF h with ⟨s2, hs2, hstart⟩ | ⟨u, hu, hstart⟩
        · refine Or.inr ⟨r, List.mem_cons_self _ _, ?_⟩
          rw [hstart, ← Option.some.inj hs2]
        · exact Or.inr ⟨u, List.mem_cons_of_mem _ hu, hstart⟩
      | some s =>
        obtain ⟨s2, hs2start, heq⟩ := detectLoop_cons_stay th pers s r rs hth
        rw [heq] at h
        rcases ih _ sF h with ⟨s3, hs3, hstart⟩ | ⟨u, hu, hstart⟩
        · exact Or.inl ⟨s, rfl, by rw [hstart, ← Option.some.inj hs3, hs2start]⟩
        · exact Or.inr ⟨u, List.mem_cons_of_mem _ hu, hstart⟩
    · cases st with
      | none =>
        rw [detectLoop_cons_skip th pers r rs hth] at h
        rcases ih _ sF h with ⟨s2, hs2, -⟩ | ⟨u, hu, hstart⟩
        · exact Option.noConfusion hs2
        · exact Or.inr ⟨u, List.mem_cons_of_mem _ hu, hstart⟩
      | some s =>
        by_cases hd : pers ≤ r.ts_ms - s.start
        · rw [detectLoop_cons_exit_emit th pers s r rs hth hd] at h
          rcases ih _ sF h with ⟨s2, hs2, -⟩ | ⟨u, hu, hstart⟩
          · exact Option.noConfusion hs2
          · exact Or.inr ⟨u, List.mem_cons_of_mem _ hu, hstart⟩
        · rw [detectLoop_cons_exit_drop th pers s r rs hth hd] at h
          rcases ih _ sF h with ⟨s2, hs2, -⟩ | ⟨u, hu, hstart⟩
          · exact Option.noConfusion hs2
          · exact Or.inr ⟨u, List.mem_cons_of_mem _ hu, hstart⟩

theorem detectLoop_start_le_end (th : ℚ) (pers : Int) :
    ∀ (rows : List MetricRow) (st : Option InsideSt),
      List.Pairwise (fun a b => a.ts_ms ≤ b.ts_ms) rows →
      (∀ s, st = some s → ∀ r ∈ rows, s.start ≤ r.ts_ms) →
      ∀ e ∈ (detectLoop th pers st rows).2, e.start_ms ≤ e.end_ms := by
  intro rows
  induction rows with
  | nil => intro st _ _ e he; simp [detectLoop] at he
  | cons r rs ih =>
    intro st hsort hst e he
    obtain ⟨hr_all, htail⟩ := List.pairwise_cons.mp hsort
    by_cases hth : th ≤ r.spread_bps
    · cases st with
      | none =>
        rw [detectLoop_cons_enter th pers r rs hth] at he
        refine ih _ htail ?_ e he
        intro s2 hs2 u hu
        rw [← Option.some.inj hs2]
        exact hr_all u hu
      | some s =>
        obtain ⟨s2, hs2start, heq⟩ := detectLoop_cons_stay th pers s r rs hth
        rw [heq] at he
        refine ih _ htail ?_ e he
        intro s3 hs3 u hu
        rw [← Option.some.inj hs3, hs2start]
        exact hst s rfl u (List.mem_cons_of_mem _ hu)
    · cases st with
      | none =>
        rw [detectLoop_cons_skip th pers r rs hth] at he
        exact ih _ htail (fun s2 hs2 => Option.noConfusion hs2) e he
      | some s =>
        by_cases hd : pers ≤ r.ts_ms - s.start
        · rw [detectLoop_cons_exit_emit th pers s r rs hth hd] at he
          rcases List.mem_cons.mp he with rfl | he2
          · exact hst s rfl r (List.mem_cons_self _ _)
          · exact ih _ htail (fun s2 hs2 => Option.noConfusion hs2) e he2
        · rw [detectLoop_cons_exit_drop th pers s r rs hth hd] at he
          exact ih _ htail (fun s2 hs2 => Option.noConfusion hs2) e he

theorem detectLoop_end_le_state (th : ℚ) (pers : Int) :
    ∀ (rows : List MetricRow) (st : Option InsideSt),
      List.Pairwise (fun a b => a.ts_ms ≤ b.ts_ms) rows →
      ∀ sF, (detectLoop th pers st rows).1 = some sF →
      ∀ e ∈ (detectLoop th pers st rows).2, e.end_ms ≤ sF.start := by
  intro rows
  induction rows with
  | nil => intro st _ sF _ e he; simp [detectLoop] at he
  | cons r rs ih =>
    intro st hsort sF hsF e he
    obtain ⟨hr_all, htail⟩ := List.pairwise_cons.mp hsort
    by_cases hth : th ≤ r.spread_bps
    · cases st with
      | none =>
        rw [detectLoop_cons_enter th pers r rs hth] at hsF he
        exact ih _ htail sF hsF e he
      | some s =>
        obtain ⟨s2, hs2start, heq⟩ := detectLoop_cons_stay th pers s r rs hth
        rw [heq] at hsF he
        exact ih _ htail sF hsF e he
    · cases st with
      | none =>
        rw [detectLoop_cons_skip th pers r rs hth] at hsF he
        exact ih _ htail sF hsF e he
      | some s =>
        by_cases hd : pers ≤ r.ts_ms - s.start
        · rw [detectLoop_cons_exit_emit th pers s r rs hth hd] at hsF he
          rcases List.mem_cons.mp he with rfl | he2
          · rcases detectLoop_state_start_origin th pers rs none sF hsF with
              ⟨s2, hs2, -⟩ | ⟨u, hu, hstart⟩
            · exact Option.noConfusion hs2
            · rw [hstart]
              exact hr_all u hu
          · exact ih _ htail sF hsF e he2
        · rw [detectLoop_cons_exit_drop th pers s r rs hth hd] at hsF he
          exact ih _ htail sF hsF e he

theorem detectLoop_chain (th : ℚ) (pers : Int) :
    ∀ (rows : List MetricRow) (st : Option InsideSt),
      List.Pairwise (fun a b => a.ts_ms ≤ b.ts_ms) rows →
      List.Chain' (fun a b => a.end_ms ≤ b.start_ms)
        (detectLoop th pers st rows).2 := by
  intro rows
  induction rows with
  | nil => intro st _; simp [detectLoop]
  | cons r rs ih =>
    intro st hsort
    obtain ⟨hr_all, htail⟩ := List.pairwise_cons.mp hsort
    by_cases hth : th ≤ r.spread_bps
    · cases st with
      | none => rw [detectLoop_cons_enter th pers r rs hth]; exact ih _ htail
      | some s =>
        obtain ⟨s2, hs2start, heq⟩ := detectLoop_cons_stay th pers s r rs hth
        rw [heq]
        exact ih _ htail
    · cases st with
      | none => rw [detectLoop_cons_skip th pers r rs hth]; exact ih _ htail
      | some s =>
        by_cases hd : pers ≤ r.ts_ms - s.start
        · rw [detectLoop_cons_exit_emit th pers s r rs hth hd]
          refine List.chain'_cons'.mpr ⟨?_, ih _ htail⟩
          intro y hy
          have hymem : y ∈ (detectLoop th pers none rs).2 :=
            List.mem_of_mem_head? hy
          rcases detectLoop_event_start_origin th pers rs none y hymem with
            ⟨s2, hs2, -⟩ | ⟨u, hu, hstart⟩
          · exact Option.noConfusion hs2
          · rw [hstart]
            exact hr_all u hu
        · rw [detectLoop_cons_exit_drop th pers s r rs hth hd]
          exact ih _ htail

/-- C10: over metric rows with non-decreasing timestamps, the extracted
events are well-formed, ordered, and non-overlapping: every event has
`start_ms ≤ end_ms`, and each event's `start_ms` is at least the previous
emitted event's `end_ms`. -/
theorem extracted_events_ordered (th : ℚ) (pers : Int)
    (rows : List MetricRow)
    (hsort : List.Pairwise (fun a b => a.ts_ms ≤ b.ts_ms) rows) :
    (∀ e ∈ detectEvents th pers rows, e.start_ms ≤ e.end_ms)
    ∧ List.Chain' (fun a b => a.end_ms ≤ b.start_ms)
        (detectEvents th pers rows) := by
  have hA := detectLoop_start_le_end th pers rows none hsort
    (fun s hs => Option.noConfusion hs)
  have hB := detectLoop_chain th pers rows none hsort
  have hshape : detectEvents th pers rows
      = (detectLoop th pers none rows).2
        ++ flushTrailing pers (detectLoop th pers none rows).1
            rows.getLast? := rfl
  rcases hst : (detectLoop th pers none rows).1 with - | s
  · have hflush : flushTrailing pers (detectLoop th pers none rows).1
        rows.getLast? = [] := by rw [hst]; simp [flushTrailing]
    rw [hshape, hflush, List.append_nil]
    exact ⟨hA, hB⟩
  · rcases hlast : rows.getLast? with - | lr
    · have hflush : flushTrailing pers (detectLoop th pers none rows).1
          rows.getLast? = [] := by rw [hst, hlast]; simp [flushTrailing]
      rw [hshape, hflush, List.append_nil]
      exact ⟨hA, hB⟩
    · by_cases hd : pers ≤ lr.ts_ms - s.start
      · have hflush : flushTrailing pers (detectLoop th pers none rows).1
            rows.getLast?
            = [⟨s.start, lr.ts_ms, lr.ts_ms - s.start, s.peak,
                s.peak_v.1, s.peak_v.2⟩] := by
          rw [hst, hlast]
          simp [flushTrailing, hd]
        have hsstart : s.start ≤ lr.ts_ms := by
          rcases detectLoop_state_start_origin th pers rows none s hst with
            ⟨s2, hs2, -⟩ | ⟨u, hu, hstart⟩
          · exact Option.noConfusion hs2
          · rw [hstart]
            exact ts_le_getLast hsort hu hlast
        rw [hshape, hflush]
        constructor
        · intro e hemem
          rcases List.mem_append.mp hemem with h1 | h1
          · exact hA e h1
          · rw [List.mem_singleton.mp h1]
            exact hsstart
        · rw [List.chain'_append]
          refine ⟨hB, List.chain'_singleton _, ?_⟩
          intro x hx y hy
          have hxmem : x ∈ (detectLoop th pers none rows).2 := memGetLast? hx
          have hyEq : (⟨s.start, lr.ts_ms, lr.ts_ms - s.start, s.peak,
              s.peak_v.1, s.peak_v.2⟩ : Event) = y := by simpa using hy
          rw [← hyEq]
          exact detectLoop_end_le_state th pers rows none hsort s hst x hxmem
      · have hflush : flushTrailing pers (detectLoop th pers none rows).1
            rows.getLast? = [] := by
          rw [hst, hlast]
          simp [flushTrailing, hd]
        rw [hshape, hflush, List.append_nil]
        exact ⟨hA, hB⟩

/-- Witness for `extracted_events_ordered` on the boundary example. -/
theorem extracted_events_ordered_witness :
    List.Pairwise (fun a b => a.ts_ms ≤ b.ts_ms) rowsBoundaryEx
    ∧ ((∀ e ∈ detectEvents 5 0 rowsBoundaryEx, e.start_ms ≤ e.end_ms)
      ∧ List.Chain' (fun a b => a.end_ms ≤ b.start_ms)
          (detectEvents 5 0 rowsBoundaryEx)) :=
  ⟨by decide, extracted_events_ordered 5 0 rowsBoundaryEx (by decide)⟩

/-! ### As-of merger claims -/

theorem lookupVenue_append (l1 l2 : List (String × ℚ)) (v : String) :
    lookupVenue (l1 ++ l2) v
      = match lookupVenue l1 v with
        | some m => some m
        | none => lookupVenue l2 v := by
  induction l1 with
  | nil => simp [lookupVenue]
  | cons p ps ih =>
    by_cases h : p.1 = v <;> simp [lookupVenue, h, ih]

theorem lookupVenue_map_set (w : String) (m : ℚ) :
    ∀ (lm : List (String × ℚ)) (v : String),
    lookupVenue (lm.map fun p => if p.1 = w then (w, m) else p) v
      = if v = w then
          (if lm.any (fun p => p.1 = w) then some m else none)
        else lookupVenue lm v := by
  intro lm
  induction lm with
  | nil => intro v; by_cases h : v = w <;> simp [lookupVenue, h]
  | cons p ps ih =>
    intro v
    by_cases hp : p.1 = w
    · by_cases hv : v = w
      · subst hv
        simp [lookupVenue, hp, List.any_cons]
      · have hwv : ¬ (w = v) := fun hh => hv hh.symm
        have hpv : ¬ (p.1 = v) := by rw [hp]; exact hwv
        simp [lookupVenue, hp, hwv, hpv, ih, hv]
    · by_cases hv : v = w
      · subst hv
        have hpv : ¬ (p.1 = v) := hp
        have hdec : decide (p.1 = v) = false := by simpa using hpv
        simp [lookupVenue, hp, hpv, ih, List.any_cons]
        rw [hdec, Bool.false_or]
      · by_cases hpv : p.1 = v <;> simp [lookupVenue, hp, hpv, ih, hv]

theorem lookupVenue_eq_none_of_not_any (lm : List (String × ℚ)) (w : String)
    (h : ¬ lm.any (fun p => p.1 = w) = true) : lookupVenue lm w = none := by
  induction lm with
  | nil => rfl
  | cons p ps ih =>
    simp only [List.any_cons, Bool.or_eq_true, not_or] at h
    have hp : ¬ (p.1 = w) := by simpa using h.1
    simp [lookupVenue, hp, ih h.2]

theorem lookupVenue_updateLast (lm : List (String × ℚ)) (w v : String)
    (m : ℚ) :
    lookupVenue (updateLast lm w m) v
      = if v = w then some m else lookupVenue lm v := by
  unfold updateLast
  by_cases ha : lm.any (fun p => p.1 = w) = true
  · rw [if_pos ha, lookupVenue_map_set]
    by_cases hv : v = w <;> simp [hv, ha]
  · rw [if_neg ha, lookupVenue_append]
    by_cases hv : v = w
    · subst hv
      rw [lookupVenue_eq_none_of_not_any lm v ha]
      simp [lookupVenue]
    · cases hl : lookupVenue lm v with
      | some x => simp [hl, hv]
      | none =>
        have hwv : ¬ ((w, m).1 = v) := fun hh => hv hh.symm
        simp [hl, lookupVenue, hwv, hv]

theorem lastMidOf_cons (v : String) (t : Tick) (ts : List Tick) :
    lastMidOf v (t :: ts)
      = if t.venue = v then
          (match lastMidOf v ts with
           | some m => some m
           | none => some t.mid)
        else lastMidOf v ts := by
  unfold lastMidOf
  by_cases hv : t.venue = v
  · rw [List.filter_cons_of_pos (by simpa using hv), if_pos hv]
    cases hf : ts.filter (fun u => u.venue = v) with
    | nil => simp
    | cons a l =>
      rw [List.getLast?_cons_cons]
      cases hg : (a :: l).getLast? with
      | none => simp at hg
      | some u => simp
  · rw [List.filter_cons_of_neg (by simpa using hv), if_neg hv]

theorem lookupVenue_foldl (v : String) :
    ∀ (ticks : List Tick) (lm : List (String × ℚ)),
    lookupVenue (ticks.foldl (fun lm t => updateLast lm t.venue t.mid) lm) v
      = match lastMidOf v ticks with
        | some m => some m
        | none => lookupVenue lm v := by
  intro ticks
  induction ticks with
  | nil => intro lm; simp [lastMidOf, lookupVenue]
  | cons t ts ih =>
    intro lm
    rw [List.foldl_cons, ih, lastMidOf_cons]
    by_cases hv : t.venue = v
    · rw [if_pos hv]
      cases hlast : lastMidOf v ts with
      | some m => simp
      | none =>
        simp only
        rw [lookupVenue_updateLast, if_pos hv.symm]
    · rw [if_neg hv]
      cases hlast : lastMidOf v ts with
      | some m => simp
      | none =>
        simp only
        rw [lookupVenue_updateLast,
          if_neg (fun hh : v = t.venue => hv hh.symm)]

theorem metricsLoop_single_venue (v0 : String) :
    ∀ (ticks : List Tick) (lm : List (String × ℚ)),
      (∀ t ∈ ticks, t.venue = v0) → (∀ p ∈ lm, p.1 = v0) → lm.length ≤ 1 →
      metricsLoop lm ticks = Except.ok [] := by
  intro ticks
  induction ticks with
  | nil => intro lm _ _ _; rfl
  | cons t ts ih =>
    intro lm hticks hlm hlen
    have hv : t.venue = v0 := hticks t (List.mem_cons_self _ _)
    have hup : updateLast lm t.venue t.mid = [(t.venue, t.mid)] := by
      cases lm with
      | nil => simp [updateLast]
      | cons p ps =>
        cases ps with
        | nil =>
          have hp : p.1 = v0 := hlm p (List.mem_cons_self _ _)
          have hpt : p.1 = t.venue := by rw [hp, hv]
          simp [updateLast, hpt]
        | cons q qs => simp at hlen
    have hms : metricOfState t.ts_ms (updateLast lm t.venue t.mid)
        = MetricResult.noSample := by
      rw [hup]
      rfl
    have hrest : metricsLoop (updateLast lm t.venue t.mid) ts
        = Except.ok [] := by
      rw [hup]
      exact ih [(t.venue, t.mid)]
        (fun u hu => hticks u (List.mem_cons_of_mem _ hu))
        (fun p hp => by rw [List.mem_singleton.mp hp, hv])
        (by simp)
    simp only [metricsLoop, hms, hrest]

/-- C4: after consuming any tick sequence, the as-of state maps venue `v`
to the mid of the latest tick with `venue = v` in the consumed input (never
a future tick), and while fewer than two distinct venues have ever
reported, the metric loop emits no sample. -/
theorem asof_merger_semantics (ticks ticks2 : List Tick) (v : String)
    (hfew : (ticks2.map Tick.venue).dedup.length < 2) :
    lookupVenue (venueStateAfter ticks) v = lastMidOf v ticks
    ∧ metricsLoop [] ticks2 = Except.ok [] := by
  constructor
  · have h := lookupVenue_foldl v ticks []
    rw [venueStateAfter, h]
    cases lastMidOf v ticks <;> simp [lookupVenue]
  · cases hd : (ticks2.map Tick.venue).dedup with
    | nil =>
      have : ticks2.map Tick.venue = [] := (List.dedup_eq_nil _).mp hd
      rw [List.map_eq_nil_iff.mp this]
      rfl
    | cons x xs =>
      cases xs with
      | nil =>
        refine metricsLoop_single_venue x ticks2 [] ?_ (by simp) (by simp)
        intro t ht
        have hmem : t.venue ∈ (ticks2.map Tick.venue).dedup :=
          List.mem_dedup.mpr (List.mem_map_of_mem _ ht)
        rw [hd] at hmem
        exact List.mem_singleton.mp hmem
      | cons y ys =>
        rw [hd] at hfew
        simp at hfew
        omega

/-- Witness for `asof_merger_semantics` on a two-tick single-venue input. -/
theorem asof_merger_semantics_witness :
    (([⟨0, "A", 3⟩, ⟨1, "A", 5⟩] : List Tick).map Tick.venue).dedup.length < 2
    ∧ (lookupVenue (venueStateAfter [⟨0, "A", 3⟩, ⟨1, "A", 5⟩]) "A"
        = lastMidOf "A" [⟨0, "A", 3⟩, ⟨1, "A", 5⟩]
      ∧ metricsLoop [] [⟨0, "A", 3⟩, ⟨1, "A", 5⟩] = Except.ok []) :=
  ⟨by decide,
   asof_merger_semantics [⟨0, "A", 3⟩, ⟨1, "A", 5⟩] [⟨0, "A", 3⟩, ⟨1, "A", 5⟩]
     "A" (by decide)⟩
